import Mathlib

/-!
Shallow embedding of `src/app/core/latex_parser.py` (class `LaTeXParser`).

Text is modelled as `List Char`; a document is a list of lines, each line
keeping its own terminator, exactly as Python's `str.splitlines(True)`
produces.  Python `int` indices are `Int` (the `-1` sentinel matters),
list indexing that can raise `IndexError` returns `Option`, and each
method's observable outcome (return value vs uncaught exception) is made
explicit in its result type.  The Python `dict` of sections is an ordered
association list with overwrite-in-place insertion, matching dict update
semantics on the operations the parser performs.
-/

namespace LatexParser


/-- Option fallback: the first value if present, otherwise the second. -/
def orElseO {α : Type} (a b : Option α) : Option α :=
  match a with
  | some x => some x
  | none => b

/-- Python's substring test `pat in s`, on strings as char lists. -/
def containsSub (pat : List Char) : List Char → Bool
  | [] => pat.isEmpty
  | c :: rest => pat.isPrefixOf (c :: rest) || containsSub pat rest

/-- The set of line terminators recognised by Python's `str.splitlines`. -/
def isLineBreak (c : Char) : Bool :=
  c = '\n' || c = '\r' || c = '\x0b' || c = '\x0c' || c = '\x1c' || c = '\x1d' ||
  c = '\x1e' || c = '\x85' || c = '\u2028' || c = '\u2029'

/-- Worker for `str.splitlines(keepends=True)`: `acc` holds the characters of
the line being built, in reverse; `"\r\n"` counts as a single terminator. -/
def splitAux : List Char → List Char → List (List Char)
  | acc, [] => if acc = [] then [] else [acc.reverse]
  | acc, '\r' :: '\n' :: rest => (acc.reverse ++ ['\r', '\n']) :: splitAux [] rest
  | acc, c :: rest =>
    if isLineBreak c then (acc.reverse ++ [c]) :: splitAux [] rest
    else splitAux (c :: acc) rest

/-- Python `text.splitlines(True)`: split into lines, each keeping its terminator. -/
def pySplitlines (s : List Char) : List (List Char) := splitAux [] s

/-- Python list indexing `l[i]` (negative indices wrap); `none` is `IndexError`. -/
def pyGet {α : Type} (l : List α) (i : Int) : Option α :=
  if 0 ≤ i then l.get? i.toNat
  else if 0 ≤ i + l.length then l.get? (i + l.length).toNat
  else none

/-- Normalisation of a slice bound as Python does it: negative bounds count
from the end, then the bound is clamped into `[0, len]`. -/
def pyNorm (n : Nat) (i : Int) : Nat :=
  (min (max (if i < 0 then i + n else i) 0) (n : Int)).toNat

/-- Python slice read `l[a:b]` (never raises). -/
def pyGetSlice {α : Type} (l : List α) (a b : Int) : List α :=
  (l.take (pyNorm l.length b)).drop (pyNorm l.length a)

/-- Python slice assignment `l[a:b] = new` (never raises). -/
def pySetSlice {α : Type} (l : List α) (a b : Int) (new : List α) : List α :=
  let a' := pyNorm l.length a
  let b' := max a' (pyNorm l.length b)
  l.take a' ++ new ++ l.drop b'

/-- Python `range(a, b)` over `Int`. -/
def intRange (a b : Int) : List Int :=
  (List.range (b - a).toNat).map (fun (k : Nat) => a + (k : Int))

/-- The literal begin-of-body marker. -/
def beginMarker : List Char := "\\begin{document}".data

/-- The literal end-of-body marker. -/
def endMarker : List Char := "\\end{document}".data

/-- One stored section: the dict value `{'content': ..., 'start_line': ...,
'end_line': ...}` built by `_extract_sections`. -/
structure Sect where
  content : List Char
  start_line : Int
  end_line : Int
  deriving DecidableEq

/-- The `self.sections` dict: ordered association list, overwrite keeps position. -/
abbrev SecDict := List (List Char × Sect)

/-- Python dict lookup `d[k]` / `k in d` combined: `none` when absent. -/
def dictLookup (d : SecDict) (k : List Char) : Option Sect :=
  match d with
  | [] => none
  | (k', v) :: rest => if k' = k then some v else dictLookup rest k

/-- Python dict update `d[k] = v`: overwrite in place, or append a new entry. -/
def dictInsert (d : SecDict) (k : List Char) (v : Sect) : SecDict :=
  match d with
  | [] => [(k, v)]
  | (k', v') :: rest => if k' = k then (k, v) :: rest else (k', v') :: dictInsert rest k v

/-- Parser state (`LaTeXParser.__init__`).  The Python object also holds a
`document_structure` dict that is initialised empty and never read or written
again anywhere in the module, so it is omitted. -/
structure Parser where
  preamble : List Char := []
  sections : SecDict := []
  begin_document_index : Int := -1
  end_document_index : Int := -1
  raw_content : List (List Char) := []
  deriving DecidableEq

/-- A freshly constructed `LaTeXParser()`. -/
def newParser : Parser := {}

/-- The scan of `_identify_document_boundaries`: `for i, line in enumerate(...)`
with `if ... in line: begin = i  elif ... in line: end = i`.  Note the `elif`:
a line containing both markers only updates the begin index, and an index with
no matching line keeps its previous value. -/
def boundsLoop : Int → List (List Char) → Int → Int → Int × Int
  | _, [], b, e => (b, e)
  | i, l :: rest, b, e =>
    if containsSub beginMarker l then boundsLoop (i + 1) rest i e
    else if containsSub endMarker l then boundsLoop (i + 1) rest b i
    else boundsLoop (i + 1) rest b e

/-- `_identify_document_boundaries`; the `Bool` is `false` when the final
`ValueError` is raised (an index still `-1` after the scan).  The updated
indices are kept even on the error path, as in Python. -/
def identify_document_boundaries (p : Parser) : Parser × Bool :=
  let be := boundsLoop 0 p.raw_content p.begin_document_index p.end_document_index
  ({p with begin_document_index := be.1, end_document_index := be.2},
   if be.1 = -1 ∨ be.2 = -1 then false else true)

/-- `_extract_preamble`: only assigns when `begin_document_index > 0`. -/
def extract_preamble (p : Parser) : Parser :=
  if 0 < p.begin_document_index then
    {p with preamble := (p.raw_content.take p.begin_document_index.toNat).flatten}
  else p

/-- Matches the regex `\{([^}]+)\}` part of the section pattern right after the
command word: an opening brace, a nonempty run of non-brace characters, and a
closing brace; returns the captured group. -/
def captureBrace : List Char → Option (List Char)
  | '{' :: cs =>
    let grab := cs.takeWhile (fun c => c ≠ '}')
    if grab ≠ [] ∧ grab.length < cs.length then some grab else none
  | _ => none

/-- Tries the alternation `\\(section|subsection|subsubsection)\{([^}]+)\}` at
the head of the list.  The three command words are mutually exclusive at any
position, so testing them in the regex's preference order is exact. -/
def matchHeaderAt : List Char → Option (List Char)
  | '\\' :: rest =>
    if "section".data.isPrefixOf rest then captureBrace (rest.drop 7)
    else if "subsection".data.isPrefixOf rest then captureBrace (rest.drop 10)
    else if "subsubsection".data.isPrefixOf rest then captureBrace (rest.drop 13)
    else none
  | _ => none

/-- `section_pattern.search(line)`: leftmost match of the header pattern,
returning the captured title (the regex's group 2). -/
def findSectionHeader : List Char → Option (List Char)
  | [] => none
  | c :: rest =>
    match matchHeaderAt (c :: rest) with
    | some n => some n
    | none => findSectionHeader rest

/-- The local state of the `_extract_sections` loop: the dict being mutated,
`current_section`, `section_content` and `section_start_line`. -/
structure ScanSt where
  dict : SecDict
  cur : Option (List Char)
  buf : List (List Char)
  start : Int
  deriving DecidableEq

/-- One iteration of the `_extract_sections` loop body at line index `i`. -/
def scanStep (i : Int) (line : List Char) (st : ScanSt) : ScanSt :=
  match findSectionHeader line with
  | some name =>
    let d := match st.cur with
      | some c => dictInsert st.dict c ⟨st.buf.flatten, st.start, i - 1⟩
      | none => st.dict
    ⟨d, some name, [line], i⟩
  | none =>
    match st.cur with
    | some _ => {st with buf := st.buf ++ [line]}
    | none => st

/-- The `for i in range(...)` loop of `_extract_sections`; the `Bool` is
`false` when `raw_content[i]` raises `IndexError`, in which case the dict
updates made so far are kept (they went through `self.sections` in place). -/
def scanLoop (raw : List (List Char)) : List Int → ScanSt → ScanSt × Bool
  | [], st => (st, true)
  | i :: is, st =>
    match pyGet raw i with
    | none => (st, false)
    | some line => scanLoop raw is (scanStep i line st)

/-- `_extract_sections` run against an explicit initial dict `d`
(`self.sections` is never cleared, so the scan mutates whatever is there). -/
def runScan (raw : List (List Char)) (b e : Int) (d : SecDict) : SecDict × Bool :=
  let r := scanLoop raw (intRange (b + 1) e) ⟨d, none, [], -1⟩
  if r.2 then
    match r.1.cur with
    | some c => (dictInsert r.1.dict c ⟨r.1.buf.flatten, r.1.start, e - 1⟩, true)
    | none => (r.1.dict, true)
  else (r.1.dict, false)

/-- `_extract_sections` on the parser state. -/
def extract_sections (p : Parser) : Parser × Bool :=
  let r := runScan p.raw_content p.begin_document_index p.end_document_index p.sections
  ({p with sections := r.1}, r.2)

/-- `parse_content`: split, locate boundaries, extract preamble and sections;
any exception is caught and turned into `False`.  `parse_file` is identical
except that the lines come from `file.readlines()` instead of
`splitlines(True)` (file I/O is outside the embedding). -/
def parse_content (p : Parser) (text : List Char) : Parser × Bool :=
  let p1 := {p with raw_content := pySplitlines text}
  let r2 := identify_document_boundaries p1
  if r2.2 then
    let p3 := extract_preamble r2.1
    let r4 := extract_sections p3
    (r4.1, r4.2)
  else (r2.1, false)

/-- `get_section`. -/
def get_section (p : Parser) (name : List Char) : Option (List Char) :=
  (dictLookup p.sections name).map Sect.content

/-- `get_all_sections`. -/
def get_all_sections (p : Parser) : SecDict := p.sections

/-- `generate_latex`: join all current lines verbatim. -/
def generate_latex (p : Parser) : List Char := p.raw_content.flatten

/-- Observable outcome of `modify_section`, which has no try/except: `raised`
marks an exception propagating to the caller (never a return value). -/
inductive MutOutcome
  | success
  | failure
  | raised
  deriving DecidableEq

/-- `modify_section`: validate the name, splice `raw_content[start:end+1]`,
then re-run boundary identification and section extraction (but not preamble
extraction).  Exceptions in the re-derivation are uncaught. -/
def modify_section (p : Parser) (name : List Char) (new_content : List Char) :
    Parser × MutOutcome :=
  match dictLookup p.sections name with
  | none => (p, MutOutcome.failure)
  | some s =>
    let nr := pySetSlice p.raw_content s.start_line (s.end_line + 1) (pySplitlines new_content)
    let p1 := {p with raw_content := nr}
    let r2 := identify_document_boundaries p1
    if r2.2 then
      let r3 := extract_sections r2.1
      (r3.1, if r3.2 then MutOutcome.success else MutOutcome.raised)
    else (r2.1, MutOutcome.raised)

/-- `add_section`: build `"\section{name}\n" + content`, choose the insertion
index from `position` (`"start"`, `"end"`, or an existing section's name),
splice it in, and re-derive.  Everything is inside try/except, so exceptions
come back as `false`, keeping whatever partial state was already written. -/
def add_section (p : Parser) (name content position : List Char) : Parser × Bool :=
  let full := ("\\section\x7b".data ++ name ++ "\x7d\n".data) ++ content
  let ipos : Option Int :=
    if position = "start".data then some (p.begin_document_index + 1)
    else if position = "end".data then some p.end_document_index
    else match dictLookup p.sections position with
      | some s => some (s.end_line + 1)
      | none => none
  match ipos with
  | none => (p, false)
  | some ip =>
    let p1 := {p with raw_content := pySetSlice p.raw_content ip ip (pySplitlines full)}
    let r2 := identify_document_boundaries p1
    if r2.2 then
      let r3 := extract_sections r2.1
      (r3.1, r3.2)
    else (r2.1, false)

/-- `reorder_sections`: check every listed name exists, build the new body by
concatenating each named section's current line range in the given order,
replace the whole body span `raw_content[begin+1:end]`, and re-derive.  All of
it is inside try/except. -/
def reorder_sections (p : Parser) (order : List (List Char)) : Parser × Bool :=
  if order.all (fun n => (dictLookup p.sections n).isSome) then
    let new_body := (order.map (fun n =>
      match dictLookup p.sections n with
      | some s => pyGetSlice p.raw_content s.start_line (s.end_line + 1)
      | none => [])).flatten
    let nr := pySetSlice p.raw_content (p.begin_document_index + 1) p.end_document_index new_body
    let p1 := {p with raw_content := nr}
    let r2 := identify_document_boundaries p1
    if r2.2 then
      let r3 := extract_sections r2.1
      (r3.1, r3.2)
    else (r2.1, false)
  else (p, false)

/-- Python's `\s` (ASCII range; the inputs in this development are ASCII). -/
def isPySpace (c : Char) : Bool :=
  c = ' ' || c = '\t' || c = '\n' || c = '\x0b' || c = '\x0c' || c = '\r'

/-- Python `str.strip()` on whitespace. -/
def pyStrip (s : List Char) : List Char :=
  ((s.dropWhile isPySpace).reverse.dropWhile isPySpace).reverse

/-- Index of the first occurrence of `pat` in `s`, if any. -/
def findSub (pat : List Char) (s : List Char) : Option Nat :=
  match s with
  | [] => if pat.isEmpty then some 0 else none
  | _ :: t => if pat.isPrefixOf s then some 0 else (findSub pat t).map (fun n => n + 1)

/-- The literal `\begin{itemize}`. -/
def beginItemize : List Char := "\\begin{itemize}".data

/-- The literal `\end{itemize}`. -/
def endItemize : List Char := "\\end{itemize}".data

/-- `items_pattern.search`: group 1 of
`\\begin\{itemize\}(.*?)\\end\{itemize\}` with DOTALL — the text between the
first `\begin{itemize}` and the first `\end{itemize}` after it. -/
def itemizeBody (content : List Char) : Option (List Char) :=
  match findSub beginItemize content with
  | none => none
  | some i =>
    let rest := content.drop (i + beginItemize.length)
    match findSub endItemize rest with
    | none => none
    | some j => some (rest.take j)

/-- The lookahead `(?=\\item|\n\\end)` of `item_pattern`. -/
def lookAheadOk (t : List Char) : Bool :=
  "\\item".data.isPrefixOf t || "\n\\end".data.isPrefixOf t

/-- The lazy group `(.*?)` of `item_pattern`: shortest capture whose remainder
satisfies the lookahead; `none` when no split works. -/
def lazyCapture : List Char → Option (List Char × List Char)
  | [] => if lookAheadOk [] then some ([], []) else none
  | c :: rest =>
    if lookAheadOk (c :: rest) then some ([], c :: rest)
    else (lazyCapture rest).map (fun pr => (c :: pr.1, pr.2))

/-- The greedy `\s+` of `item_pattern` with backtracking: try the longest
whitespace run first, shrinking it (never to zero) until the lazy group and
lookahead succeed. -/
def tryWs (afterKw : List Char) : Nat → Option (List Char × List Char)
  | 0 => none
  | w + 1 =>
    match lazyCapture (afterKw.drop (w + 1)) with
    | some r => some r
    | none => tryWs afterKw w

/-- A match of `item_pattern` anchored at the head of `s`: the capture and the
remainder from `match.end()` (the lookahead consumes nothing). -/
def itemMatchAt (s : List Char) : Option (List Char × List Char) :=
  if "\\item".data.isPrefixOf s then
    let afterKw := s.drop 5
    tryWs afterKw (afterKw.takeWhile isPySpace).length
  else none

/-- `item_pattern.finditer`: leftmost matches, resuming after each match.
The fuel argument only serves structural recursion; every step consumes at
least one character, so fuel `s.length + 1` is always enough. -/
def itemScanF : Nat → List Char → List (List Char)
  | 0, _ => []
  | _ + 1, [] => []
  | f + 1, c :: rest =>
    match itemMatchAt (c :: rest) with
    | some pr => pr.1 :: itemScanF f pr.2
    | none => itemScanF f rest

/-- The three recognised skill section titles. -/
def skillSectionNames : List (List Char) :=
  ["Skills".data, "Technical Skills".data, "Core Competencies".data]

/-- `extract_skills`: for each candidate title, if the section exists and its
content is non-empty (Python truthiness), search the first itemize environment
and collect each matched item, stripped. -/
def extract_skills (p : Parser) : List (List Char) :=
  skillSectionNames.foldl (fun acc nm =>
    match get_section p nm with
    | some c =>
      if c = [] then acc
      else
        match itemizeBody c with
        | some items => acc ++ (itemScanF (items.length + 1) items).map pyStrip
        | none => acc
    | none => acc) []

/-- Does a line contain the begin marker? -/
def beginPred (l : List Char) : Bool := containsSub beginMarker l

/-- Does a line contain the end marker but not the begin marker (the only way
the `elif` branch can fire)? -/
def endPred (l : List Char) : Bool := containsSub endMarker l && !containsSub beginMarker l

/-- Index (counting from `i`) of the last element satisfying `p`, if any. -/
def lastIdxAux (p : List Char → Bool) : Int → List (List Char) → Option Int
  | _, [] => none
  | i, l :: rest =>
    match lastIdxAux p (i + 1) rest with
    | some j => some j
    | none => if p l then some i else none

/-- Concrete line sequence for C7: the last line contains both markers. -/
def c7lines : List (List Char) :=
  ["\\begin{document}\n".data, "\\end{document}\n".data,
   "x\\begin{document}y\\end{document}\n".data]

/-- Concrete input for C10: the only end-marker line also has the begin marker. -/
def c10text : List Char := "x\n\\begin{document} \\end{document}\ny\n".data

/-- Concrete input for C4: a well-formed document parsed first. -/
def c4doc1 : List Char := "\\begin{document}\na\nb\n\\end{document}".data

/-- Concrete input for C4: marker-less text parsed second. -/
def c4doc2 : List Char := "p\nq\nr\ns\nt".data

/-- The spec's C8 scenario input, with one preamble line. -/
def c8text : List Char :=
  ("pre\n\\begin{document}\n\\section{Skills}\n\\begin{itemize}\n\\item Go\n" ++
   "\\item Rust\n\\end{itemize}\n\\end{document}").data

/-- Concrete document with sections A, B and C, shared by C1, C2 and C9. -/
def docABC : List Char :=
  ("pre\n\\begin{document}\n\\section{A}\na1\n\\section{B}\nb1\n\\section{C}\nc1\n" ++
   "\\end{document}").data

/-- The parser state after loading `docABC`. -/
def pABC : Parser := (parse_content newParser docABC).1

/-- Concrete document with a single section A, for C3. -/
def doc3 : List Char := "pre\n\\begin{document}\n\\section{A}\nbody\n\\end{document}".data

/-- The parser state after loading `doc3`. -/
def p3 : Parser := (parse_content newParser doc3).1

theorem dictLookup_insert (d : SecDict) (k n : List Char) (v : Sect) :
    dictLookup (dictInsert d k v) n = if k = n then some v else dictLookup d n := by
  induction d with
  | nil =>
    simp only [dictInsert, dictLookup]
  | cons hd tl ih =>
    obtain ⟨k', v'⟩ := hd
    simp only [dictInsert]
    by_cases h : k' = k
    · subst h
      simp only [if_pos rfl, dictLookup]
      by_cases h2 : k' = n <;> simp [h2]
    · simp only [if_neg h, dictLookup, ih]
      by_cases h2 : k' = n
      · subst h2
        have h3 : ¬ (k = k') := fun hh => h hh.symm
        simp [if_neg h3]
      · simp [h2]

set_option maxHeartbeats 2000000 in
theorem splitAux_flatten (acc s : List Char) : (splitAux acc s).flatten = acc.reverse ++ s := by
  induction acc, s using splitAux.induct with
  | case1 => simp [splitAux]
  | case2 a ha => simp [splitAux, ha]
  | case3 a rest ih => simp [splitAux, ih]
  | case4 a c rest hne hbr ih =>
    rw [splitAux] <;> simp_all
  | case5 a c rest hne hbr ih =>
    rw [splitAux] <;> simp_all

theorem pySplitlines_flatten (s : List Char) : (pySplitlines s).flatten = s := by
  simpa using splitAux_flatten [] s

theorem boundsLoop_fst (lines : List (List Char)) :
    ∀ (i b e : Int), (boundsLoop i lines b e).1 = (lastIdxAux beginPred i lines).getD b := by
  induction lines with
  | nil => intro i b e; simp [boundsLoop, lastIdxAux]
  | cons l rest ih =>
    intro i b e
    simp only [boundsLoop, lastIdxAux]
    by_cases hb : containsSub beginMarker l
    · simp only [if_pos hb, ih]
      have hbp : beginPred l = true := hb
      cases h : lastIdxAux beginPred (i + 1) rest <;> simp [h, hbp]
    · have hbp : beginPred l = false := by simp [beginPred, hb]
      by_cases he : containsSub endMarker l
      · simp only [if_neg hb, if_pos he, ih]
        cases h : lastIdxAux beginPred (i + 1) rest <;> simp [h, hbp]
      · simp only [if_neg hb, if_neg he, ih]
        cases h : lastIdxAux beginPred (i + 1) rest <;> simp [h, hbp]

theorem boundsLoop_snd (lines : List (List Char)) :
    ∀ (i b e : Int), (boundsLoop i lines b e).2 = (lastIdxAux endPred i lines).getD e := by
  induction lines with
  | nil => intro i b e; simp [boundsLoop, lastIdxAux]
  | cons l rest ih =>
    intro i b e
    simp only [boundsLoop, lastIdxAux]
    by_cases hb : containsSub beginMarker l
    · have hep : endPred l = false := by simp [endPred, hb]
      simp only [if_pos hb, ih]
      cases h : lastIdxAux endPred (i + 1) rest <;> simp [h, hep]
    · by_cases he : containsSub endMarker l
      · have hep : endPred l = true := by simp [endPred, hb, he]
        simp only [if_neg hb, if_pos he, ih]
        cases h : lastIdxAux endPred (i + 1) rest <;> simp [h, hep]
      · have hep : endPred l = false := by simp [endPred, he]
        simp only [if_neg hb, if_neg he, ih]
        cases h : lastIdxAux endPred (i + 1) rest <;> simp [h, hep]

theorem lastIdxAux_some (p : List Char → Bool) (lines : List (List Char)) :
    ∀ (i j : Int), lastIdxAux p i lines = some j →
      i ≤ j ∧ j < i + lines.length ∧
        ∃ l, lines.get? (j - i).toNat = some l ∧ p l = true := by
  induction lines with
  | nil => intro i j h; simp [lastIdxAux] at h
  | cons l rest ih =>
    intro i j h
    simp only [lastIdxAux] at h
    cases hrec : lastIdxAux p (i + 1) rest with
    | some j' =>
      rw [hrec] at h
      cases h
      obtain ⟨h1, h2, l', hl', hp⟩ := ih (i + 1) j hrec
      refine ⟨by omega, by simp only [List.length_cons]; push_cast; omega, l', ?_, hp⟩
      have hj : (j - i).toNat = (j - (i + 1)).toNat + 1 := by omega
      rw [hj]
      simpa using hl'
    | none =>
      rw [hrec] at h
      by_cases hp : p l
      · rw [if_pos hp] at h
        cases h
        refine ⟨le_refl _, by simp only [List.length_cons]; push_cast; omega, l, ?_, hp⟩
        simp
      · rw [if_neg hp] at h
        cases h

theorem lastIdxAux_isSome (p : List Char → Bool) (lines : List (List Char)) :
    ∀ (i : Int), (∃ l ∈ lines, p l = true) → (lastIdxAux p i lines).isSome := by
  induction lines with
  | nil => intro i h; simp at h
  | cons l rest ih =>
    intro i h
    simp only [lastIdxAux]
    cases hrec : lastIdxAux p (i + 1) rest with
    | some j => simp
    | none =>
      rcases h with ⟨l', hl', hp⟩
      rcases List.mem_cons.mp hl' with h1 | h1
      · subst h1; simp [hp]
      · have := ih (i + 1) ⟨l', h1, hp⟩
        rw [hrec] at this
        simp at this

theorem lastIdxAux_none (p : List Char → Bool) (lines : List (List Char)) :
    ∀ (i : Int), (∀ l ∈ lines, p l = false) → lastIdxAux p i lines = none := by
  induction lines with
  | nil => intro i _; simp [lastIdxAux]
  | cons l rest ih =>
    intro i h
    simp only [lastIdxAux]
    rw [ih (i + 1) (fun l' hl' => h l' (List.mem_cons_of_mem _ hl'))]
    have := h l (List.mem_cons_self _ _)
    simp [this]

theorem mem_intRange {a b i : Int} (h : i ∈ intRange a b) : a ≤ i ∧ i < b := by
  rw [intRange] at h
  rcases List.mem_map.mp h with ⟨k, hk, hi⟩
  rw [List.mem_range] at hk
  subst hi
  omega

theorem pyGet_isSome {α : Type} (l : List α) (i : Int) (h0 : 0 ≤ i) (hl : i < l.length) :
    (pyGet l i).isSome := by
  simp only [pyGet, if_pos h0]
  rw [List.get?_eq_get (by omega : i.toNat < l.length)]
  simp

theorem pyGet_mem {α : Type} (l : List α) (i : Int) (x : α) (h : pyGet l i = some x) : x ∈ l := by
  simp only [pyGet] at h
  split at h
  · exact List.get?_mem h
  · split at h
    · exact List.get?_mem h
    · cases h

theorem pyNorm_eq_toNat (n : Nat) (i : Int) (h0 : 0 ≤ i) (hn : i ≤ (n : Int)) :
    pyNorm n i = i.toNat := by
  simp only [pyNorm]
  rw [if_neg (by omega)]
  omega

theorem pySetSlice_eq {α : Type} (l : List α) (a b : Int) (new : List α)
    (h0 : 0 ≤ a) (hab : a ≤ b) (hb : b ≤ (l.length : Int)) :
    pySetSlice l a b new = l.take a.toNat ++ new ++ l.drop b.toNat := by
  simp only [pySetSlice]
  rw [pyNorm_eq_toNat _ _ h0 (by omega), pyNorm_eq_toNat _ _ (by omega) hb]
  have hmax : max a.toNat b.toNat = b.toNat := by omega
  rw [hmax]

theorem scanLoop_ok (raw : List (List Char)) (idxs : List Int) :
    ∀ (st : ScanSt), (∀ i ∈ idxs, (pyGet raw i).isSome) → (scanLoop raw idxs st).2 = true := by
  induction idxs with
  | nil => intro st _; rfl
  | cons i is ih =>
    intro st h
    have hi := h i (List.mem_cons_self _ _)
    simp only [scanLoop]
    cases hg : pyGet raw i with
    | none => rw [hg] at hi; simp at hi
    | some line =>
      exact ih _ (fun j hj => h j (List.mem_cons_of_mem _ hj))

theorem scanLoop_rel (raw : List (List Char)) (d0 : SecDict) (idxs : List Int) :
    ∀ (d1 d2 : SecDict) (cur : Option (List Char)) (buf : List (List Char)) (st : Int),
      (∀ n, dictLookup d1 n = orElseO (dictLookup d2 n) (dictLookup d0 n)) →
      (scanLoop raw idxs ⟨d1, cur, buf, st⟩).2 = (scanLoop raw idxs ⟨d2, cur, buf, st⟩).2 ∧
      (scanLoop raw idxs ⟨d1, cur, buf, st⟩).1.cur = (scanLoop raw idxs ⟨d2, cur, buf, st⟩).1.cur ∧
      (scanLoop raw idxs ⟨d1, cur, buf, st⟩).1.buf = (scanLoop raw idxs ⟨d2, cur, buf, st⟩).1.buf ∧
      (scanLoop raw idxs ⟨d1, cur, buf, st⟩).1.start = (scanLoop raw idxs ⟨d2, cur, buf, st⟩).1.start ∧
      (∀ n, dictLookup (scanLoop raw idxs ⟨d1, cur, buf, st⟩).1.dict n =
        orElseO (dictLookup (scanLoop raw idxs ⟨d2, cur, buf, st⟩).1.dict n) (dictLookup d0 n)) := by
  induction idxs with
  | nil =>
    intro d1 d2 cur buf st hrel
    exact ⟨rfl, rfl, rfl, rfl, hrel⟩
  | cons i is ih =>
    intro d1 d2 cur buf st hrel
    simp only [scanLoop]
    cases hg : pyGet raw i with
    | none => exact ⟨rfl, rfl, rfl, rfl, hrel⟩
    | some line =>
      simp only [scanStep]
      cases hh : findSectionHeader line with
      | some name =>
        cases hcur : cur with
        | none => exact ih _ _ _ _ _ hrel
        | some c =>
          refine ih _ _ _ _ _ (fun n => ?_)
          rw [dictLookup_insert, dictLookup_insert]
          by_cases hc : c = n
          · simp [hc, orElseO]
          · simp [hc, hrel n]
      | none =>
        cases hcur : cur with
        | none => exact ih _ _ _ _ _ hrel
        | some c => exact ih _ _ _ _ _ hrel

theorem scanLoop_preserve (raw : List (List Char)) (k : List Char) (idxs : List Int) :
    ∀ (d : SecDict) (cur : Option (List Char)) (buf : List (List Char)) (st : Int),
      (∀ i ∈ idxs, ∀ l, pyGet raw i = some l → findSectionHeader l ≠ some k) →
      cur ≠ some k →
      dictLookup (scanLoop raw idxs ⟨d, cur, buf, st⟩).1.dict k = dictLookup d k ∧
      (scanLoop raw idxs ⟨d, cur, buf, st⟩).1.cur ≠ some k := by
  induction idxs with
  | nil =>
    intro d cur buf st _ hcur
    exact ⟨rfl, hcur⟩
  | cons i is ih =>
    intro d cur buf st hh hcur
    simp only [scanLoop]
    cases hg : pyGet raw i with
    | none => exact ⟨rfl, hcur⟩
    | some line =>
      have hhl : findSectionHeader line ≠ some k := hh i (List.mem_cons_self _ _) line hg
      have hrest : ∀ j ∈ is, ∀ l, pyGet raw j = some l → findSectionHeader l ≠ some k :=
        fun j hj => hh j (List.mem_cons_of_mem _ hj)
      simp only [scanStep]
      cases hfh : findSectionHeader line with
      | some name =>
        have hname : name ≠ k := by
          intro heq; exact hhl (by rw [hfh, heq])
        cases hcur2 : cur with
        | none =>
          have := ih d (some name) [line] i hrest (by simp [hname])
          exact this
        | some c =>
          have hck : c ≠ k := by intro hEq; exact hcur (by rw [hcur2, hEq])
          have := ih (dictInsert d c ⟨buf.flatten, st, i - 1⟩) (some name) [line] i hrest
            (by simp [hname])
          refine ⟨?_, this.2⟩
          rw [this.1, dictLookup_insert, if_neg hck]
      | none =>
        cases hcur2 : cur with
        | none => exact ih d none buf st hrest (by simp)
        | some c =>
          exact ih d (some c) (buf ++ [line]) st hrest (by rw [hcur2] at hcur; exact hcur)

theorem runScan_ok (raw : List (List Char)) (b e : Int) (d : SecDict)
    (h : ∀ i ∈ intRange (b + 1) e, (pyGet raw i).isSome) :
    (runScan raw b e d).2 = true := by
  simp only [runScan]
  have hok := scanLoop_ok raw (intRange (b + 1) e) ⟨d, none, [], -1⟩ h
  rw [hok]
  simp only [if_true]
  cases (scanLoop raw (intRange (b + 1) e) ⟨d, none, [], -1⟩).1.cur <;> simp

theorem runScan_overlay (raw : List (List Char)) (b e : Int) (d : SecDict) :
    (runScan raw b e d).2 = (runScan raw b e []).2 ∧
    ∀ n, dictLookup (runScan raw b e d).1 n =
      orElseO (dictLookup (runScan raw b e []).1 n) (dictLookup d n) := by
  have hrel := scanLoop_rel raw d (intRange (b + 1) e) d [] none [] (-1)
    (fun n => by simp [dictLookup, orElseO])
  obtain ⟨hok, hcur, hbuf, hst, hdict⟩ := hrel
  simp only [runScan]
  rw [hok, hcur, hbuf, hst]
  cases h2 : (scanLoop raw (intRange (b + 1) e) ⟨[], none, [], -1⟩).2
  · simp only [Bool.false_eq_true, if_false]
    exact ⟨by trivial, hdict⟩
  · simp only [if_true]
    cases hc : (scanLoop raw (intRange (b + 1) e) ⟨[], none, [], -1⟩).1.cur with
    | none => exact ⟨rfl, hdict⟩
    | some c =>
      refine ⟨rfl, fun n => ?_⟩
      simp only [dictLookup_insert]
      by_cases hcn : c = n
      · simp [hcn, orElseO]
      · simp [hcn, hdict n]

theorem runScan_preserve (raw : List (List Char)) (b e : Int) (d : SecDict) (k : List Char)
    (h : ∀ l ∈ raw, findSectionHeader l ≠ some k) :
    dictLookup (runScan raw b e d).1 k = dictLookup d k := by
  have hp := scanLoop_preserve raw k (intRange (b + 1) e) d none [] (-1)
    (fun i _ l hg => h l (pyGet_mem raw i l hg)) (by simp)
  obtain ⟨hd, hc⟩ := hp
  simp only [runScan]
  cases h2 : (scanLoop raw (intRange (b + 1) e) ⟨d, none, [], -1⟩).2
  · simp only [Bool.false_eq_true, if_false]
    exact hd
  · simp only [if_true]
    cases hcv : (scanLoop raw (intRange (b + 1) e) ⟨d, none, [], -1⟩).1.cur with
    | none => exact hd
    | some c =>
      have hck : c ≠ k := by
        intro hEq
        rw [hcv, hEq] at hc
        exact hc rfl
      rw [dictLookup_insert, if_neg hck]
      exact hd

theorem identify_raw (p : Parser) : (identify_document_boundaries p).1.raw_content = p.raw_content := rfl

theorem identify_sections (p : Parser) : (identify_document_boundaries p).1.sections = p.sections := rfl

theorem extract_raw (p : Parser) : (extract_sections p).1.raw_content = p.raw_content := rfl

/-- The combined re-derivation `_identify_document_boundaries` then
`_extract_sections` run after a mutator succeeds whenever the pre-scan
begin index is nonnegative and some line of the current content contains
the end marker without the begin marker. -/
theorem rescan_ok (p1 : Parser) (hb : 0 ≤ p1.begin_document_index)
    (hex : ∃ l ∈ p1.raw_content, endPred l = true) :
    (identify_document_boundaries p1).2 = true ∧
    (extract_sections (identify_document_boundaries p1).1).2 = true := by
  have hsome := lastIdxAux_isSome endPred p1.raw_content 0 hex
  cases he : lastIdxAux endPred 0 p1.raw_content with
  | none => rw [he] at hsome; simp at hsome
  | some je =>
    obtain ⟨hj0, hjlen, l, hl, hpl⟩ := lastIdxAux_some endPred p1.raw_content 0 je he
    have hb' : (identify_document_boundaries p1).1.begin_document_index =
        (lastIdxAux beginPred 0 p1.raw_content).getD p1.begin_document_index := by
      simp only [identify_document_boundaries, boundsLoop_fst]
    have he' : (identify_document_boundaries p1).1.end_document_index = je := by
      simp only [identify_document_boundaries, boundsLoop_snd, he, Option.getD_some]
    have hbge : 0 ≤ (identify_document_boundaries p1).1.begin_document_index := by
      rw [hb']
      cases hbb : lastIdxAux beginPred 0 p1.raw_content with
      | none => simpa using hb
      | some jb =>
        obtain ⟨h1, _, _⟩ := lastIdxAux_some beginPred p1.raw_content 0 jb hbb
        simpa using h1
    constructor
    · simp only [identify_document_boundaries, boundsLoop_fst, boundsLoop_snd, he,
        Option.getD_some]
      rw [if_neg]
      push_neg
      constructor
      · revert hbge
        simp only [identify_document_boundaries, boundsLoop_fst]
        intro h
        omega
      · omega
    · simp only [extract_sections]
      apply runScan_ok
      intro i hi
      obtain ⟨hia, hib⟩ := mem_intRange hi
      rw [identify_raw]
      apply pyGet_isSome
      · omega
      · rw [he'] at hib
        omega

theorem preamble_raw (p : Parser) : (extract_preamble p).raw_content = p.raw_content := by
  simp only [extract_preamble]
  split <;> rfl

theorem parse_raw (p : Parser) (text : List Char) :
    (parse_content p text).1.raw_content = pySplitlines text := by
  simp only [parse_content]
  split
  · rw [extract_raw, preamble_raw, identify_raw]
  · rw [identify_raw]

theorem parse_false_of_identify (p : Parser) (text : List Char)
    (h : (identify_document_boundaries {p with raw_content := pySplitlines text}).2 = false) :
    (parse_content p text).2 = false := by
  simp only [parse_content]
  split
  · rename_i hcond
    rw [h] at hcond
    cases hcond
  · rfl

-- ===== claim theorems (draft) =====

theorem identify_spec (p : Parser) :
    (identify_document_boundaries p).1.begin_document_index =
      (lastIdxAux beginPred 0 p.raw_content).getD p.begin_document_index ∧
    (identify_document_boundaries p).1.end_document_index =
      (lastIdxAux endPred 0 p.raw_content).getD p.end_document_index ∧
    ((identify_document_boundaries p).2 = false ↔
      ((lastIdxAux beginPred 0 p.raw_content).getD p.begin_document_index = -1 ∨
       (lastIdxAux endPred 0 p.raw_content).getD p.end_document_index = -1)) := by
  have h1 := boundsLoop_fst p.raw_content 0 p.begin_document_index p.end_document_index
  have h2 := boundsLoop_snd p.raw_content 0 p.begin_document_index p.end_document_index
  refine ⟨h1, h2, ?_⟩
  show (if (boundsLoop 0 p.raw_content p.begin_document_index p.end_document_index).1 = -1 ∨
          (boundsLoop 0 p.raw_content p.begin_document_index p.end_document_index).2 = -1
        then false else true) = false ↔ _
  rw [h1, h2]
  split
  · rename_i hcond
    exact iff_of_true rfl hcond
  · rename_i hcond
    exact iff_of_false (by simp) hcond

theorem endIdx_not_beginLine (p : Parser) (j : Int)
    (hfresh : p.end_document_index = -1)
    (hj : (boundsLoop 0 p.raw_content p.begin_document_index p.end_document_index).2 = j)
    (hne : j ≠ -1) :
    ∃ l, pyGet p.raw_content j = some l ∧
      containsSub endMarker l = true ∧ containsSub beginMarker l = false := by
  rw [boundsLoop_snd] at hj
  cases hlast : lastIdxAux endPred 0 p.raw_content with
  | none =>
    rw [hlast, Option.getD_none, hfresh] at hj
    exact absurd hj.symm hne
  | some j' =>
    rw [hlast, Option.getD_some] at hj
    subst hj
    obtain ⟨h0, hlen, l, hl, hp⟩ := lastIdxAux_some endPred p.raw_content 0 j' hlast
    refine ⟨l, ?_, ?_, ?_⟩
    · simp only [pyGet, if_pos h0]
      simpa using hl
    · simp only [endPred, Bool.and_eq_true] at hp
      exact hp.1
    · simp only [endPred, Bool.and_eq_true, Bool.not_eq_true'] at hp
      exact hp.2

theorem parse_false_end_only_with_begin (text : List Char)
    (h : ∀ l ∈ pySplitlines text, containsSub endMarker l = true →
      containsSub beginMarker l = true) :
    (parse_content newParser text).2 = false := by
  apply parse_false_of_identify
  have hnone : lastIdxAux endPred 0 (pySplitlines text) = none := by
    apply lastIdxAux_none
    intro l hl
    simp only [endPred]
    by_cases hce : containsSub endMarker l
    · rw [h l hl hce]
      simp [hce]
    · simp [hce]
  rcases identify_spec {newParser with raw_content := pySplitlines text} with ⟨_, _, hiff⟩
  exact hiff.mpr (Or.inr (by rw [hnone]; rfl))

theorem mem_drop_of_pyGet_le (raw : List (List Char)) (m e : Int) (l : List Char)
    (h0 : 0 ≤ m) (hme : m ≤ e) (h : pyGet raw e = some l) : l ∈ raw.drop m.toNat := by
  simp only [pyGet, if_pos (by omega : (0 : Int) ≤ e)] at h
  have hlt : e.toNat < raw.length := by
    by_contra hge
    rw [List.get?_eq_none.mpr (by omega)] at h
    cases h
  have : (raw.drop m.toNat).get? (e.toNat - m.toNat) = some l := by
    rw [List.get?_drop]
    rw [show m.toNat + (e.toNat - m.toNat) = e.toNat by omega]
    simpa using h
  exact List.get?_mem this

theorem extract_preserve (p2 : Parser) (k : List Char)
    (hnh : ∀ l ∈ p2.raw_content, findSectionHeader l ≠ some k) :
    dictLookup (extract_sections p2).1.sections k = dictLookup p2.sections k :=
  runScan_preserve p2.raw_content p2.begin_document_index p2.end_document_index p2.sections k hnh

theorem overlay_after_extract (q : Parser) (d : SecDict) (hq : q.sections = d) (n : List Char) :
    dictLookup (extract_sections q).1.sections n =
      orElseO (dictLookup (runScan (extract_sections q).1.raw_content
        (extract_sections q).1.begin_document_index
        (extract_sections q).1.end_document_index []).1 n) (dictLookup d n) := by
  subst hq
  have h := (runScan_overlay q.raw_content q.begin_document_index
    q.end_document_index q.sections).2 n
  simpa [extract_sections] using h

theorem reorder_components (p : Parser) (order : List (List Char))
    (hb : 0 ≤ p.begin_document_index)
    (hbe : p.begin_document_index < p.end_document_index)
    (he : p.end_document_index < (p.raw_content.length : Int))
    (hend : Option.any endPred (pyGet p.raw_content p.end_document_index) = true)
    (hall : order.all (fun n => (dictLookup p.sections n).isSome) = true) :
    (reorder_sections p order).2 = true ∧
    (reorder_sections p order).1.raw_content =
      p.raw_content.take (p.begin_document_index + 1).toNat ++
      (order.map (fun n =>
        match dictLookup p.sections n with
        | some s => pyGetSlice p.raw_content s.start_line (s.end_line + 1)
        | none => [])).flatten ++
      p.raw_content.drop p.end_document_index.toNat ∧
    (∀ k, (∀ l ∈ (reorder_sections p order).1.raw_content, findSectionHeader l ≠ some k) →
      dictLookup (reorder_sections p order).1.sections k = dictLookup p.sections k) := by
  have hsplice : pySetSlice p.raw_content (p.begin_document_index + 1) p.end_document_index
      ((order.map (fun n =>
        match dictLookup p.sections n with
        | some s => pyGetSlice p.raw_content s.start_line (s.end_line + 1)
        | none => [])).flatten) =
      p.raw_content.take (p.begin_document_index + 1).toNat ++
      (order.map (fun n =>
        match dictLookup p.sections n with
        | some s => pyGetSlice p.raw_content s.start_line (s.end_line + 1)
        | none => [])).flatten ++
      p.raw_content.drop p.end_document_index.toNat := by
    rw [pySetSlice_eq _ _ _ _ (by omega) (by omega) (by omega)]
  have hl : ∃ l, pyGet p.raw_content p.end_document_index = some l ∧ endPred l = true := by
    cases hpg : pyGet p.raw_content p.end_document_index with
    | none => rw [hpg] at hend; simp [Option.any] at hend
    | some l => rw [hpg] at hend; exact ⟨l, rfl, by simpa [Option.any] using hend⟩
  obtain ⟨l, hpg, hpl⟩ := hl
  have hmem : l ∈ p.raw_content.drop p.end_document_index.toNat :=
    mem_drop_of_pyGet_le _ _ _ _ (by omega) (by omega) hpg
  have hex : ∃ l2 ∈ pySetSlice p.raw_content (p.begin_document_index + 1)
      p.end_document_index ((order.map (fun n =>
        match dictLookup p.sections n with
        | some s => pyGetSlice p.raw_content s.start_line (s.end_line + 1)
        | none => [])).flatten), endPred l2 = true := by
    rw [hsplice]
    exact ⟨l, List.mem_append_right _ hmem, hpl⟩
  have hok := rescan_ok ⟨p.preamble, p.sections, p.begin_document_index, p.end_document_index, pySetSlice p.raw_content (p.begin_document_index + 1) p.end_document_index ((order.map (fun n => match dictLookup p.sections n with | some s => pyGetSlice p.raw_content s.start_line (s.end_line + 1) | none => [])).flatten)⟩ (by simpa using hb) hex
  simp only [reorder_sections, hall, if_true]
  refine ⟨?_, ?_, ?_⟩
  · simp only [hok.1, if_true, hok.2]
  · simp only [hok.1, if_true, extract_raw, identify_raw]
    exact hsplice
  · intro k hnh
    simp only [hok.1, if_true] at hnh ⊢
    rw [extract_preserve _ _ (by simpa only [identify_raw] using hnh), identify_sections]

theorem modify_components (p : Parser) (name X : List Char) (s : Sect)
    (hs : dictLookup p.sections name = some s)
    (hb : 0 ≤ p.begin_document_index)
    (hs0 : 0 ≤ s.start_line)
    (hs2 : s.start_line ≤ s.end_line + 1)
    (hs3 : s.end_line < p.end_document_index)
    (he : p.end_document_index < (p.raw_content.length : Int))
    (hend : Option.any endPred (pyGet p.raw_content p.end_document_index) = true) :
    (modify_section p name X).2 = MutOutcome.success ∧
    (modify_section p name X).1.raw_content =
      p.raw_content.take s.start_line.toNat ++ pySplitlines X ++
      p.raw_content.drop (s.end_line + 1).toNat ∧
    (∀ k, (∀ l ∈ (modify_section p name X).1.raw_content, findSectionHeader l ≠ some k) →
      dictLookup (modify_section p name X).1.sections k = dictLookup p.sections k) := by
  have hsplice : pySetSlice p.raw_content s.start_line (s.end_line + 1) (pySplitlines X) =
      p.raw_content.take s.start_line.toNat ++ pySplitlines X ++
      p.raw_content.drop (s.end_line + 1).toNat := by
    rw [pySetSlice_eq _ _ _ _ hs0 hs2 (by omega)]
  have hl : ∃ l, pyGet p.raw_content p.end_document_index = some l ∧ endPred l = true := by
    cases hpg : pyGet p.raw_content p.end_document_index with
    | none => rw [hpg] at hend; simp [Option.any] at hend
    | some l => rw [hpg] at hend; exact ⟨l, rfl, by simpa [Option.any] using hend⟩
  obtain ⟨l, hpg, hpl⟩ := hl
  have hmem : l ∈ p.raw_content.drop (s.end_line + 1).toNat :=
    mem_drop_of_pyGet_le _ _ _ _ (by omega) (by omega) hpg
  have hex : ∃ l2 ∈ pySetSlice p.raw_content s.start_line (s.end_line + 1) (pySplitlines X),
      endPred l2 = true := by
    rw [hsplice]
    exact ⟨l, List.mem_append_right _ hmem, hpl⟩
  have hok := rescan_ok ⟨p.preamble, p.sections, p.begin_document_index, p.end_document_index, pySetSlice p.raw_content s.start_line (s.end_line + 1) (pySplitlines X)⟩ (by simpa using hb) hex
  simp only [modify_section, hs]
  refine ⟨?_, ?_, ?_⟩
  · simp only [hok.1, if_true, hok.2]
  · simp only [hok.1, if_true, extract_raw, identify_raw]
    exact hsplice
  · intro k hnh
    simp only [hok.1, if_true] at hnh ⊢
    rw [extract_preserve _ _ (by simpa only [identify_raw] using hnh), identify_sections]

/-- C1: the claim says that after a successful mutating operation the
sections mapping is exactly the fresh scan of the current lines between the
current boundaries.  That fails (see `c1_counterexample`): `_extract_sections`
never clears `self.sections`, so stale entries survive.  Amended: after a
successful `modify_section`, `add_section` or `reorder_sections`, the lookup of
every name in the sections mapping is the fresh-scan result when the scan
produces that name, and otherwise the pre-mutation entry. -/
theorem c1_sections_overlay :
    (∀ (p : Parser) (name X : List Char) (p' : Parser),
      modify_section p name X = (p', MutOutcome.success) →
      ∀ n, dictLookup p'.sections n =
        orElseO (dictLookup (runScan p'.raw_content p'.begin_document_index
          p'.end_document_index []).1 n) (dictLookup p.sections n)) ∧
    (∀ (p : Parser) (name content position : List Char) (p' : Parser),
      add_section p name content position = (p', true) →
      ∀ n, dictLookup p'.sections n =
        orElseO (dictLookup (runScan p'.raw_content p'.begin_document_index
          p'.end_document_index []).1 n) (dictLookup p.sections n)) ∧
    (∀ (p : Parser) (order : List (List Char)) (p' : Parser),
      reorder_sections p order = (p', true) →
      ∀ n, dictLookup p'.sections n =
        orElseO (dictLookup (runScan p'.raw_content p'.begin_document_index
          p'.end_document_index []).1 n) (dictLookup p.sections n)) := by
  refine ⟨?_, ?_, ?_⟩
  · intro p name X p' h n
    cases hlook : dictLookup p.sections name with
    | none =>
      simp only [modify_section, hlook] at h
      simp only [Prod.mk.injEq] at h
      exact absurd h.2 (by decide)
    | some s =>
      simp only [modify_section, hlook] at h
      split at h
      · split at h
        · simp only [Prod.mk.injEq] at h
          rw [← h.1]
          exact overlay_after_extract _ _ rfl n
        · simp only [Prod.mk.injEq] at h
          exact absurd h.2 (by decide)
      · simp only [Prod.mk.injEq] at h
        exact absurd h.2 (by decide)
  · intro p name content position p' h n
    simp only [add_section] at h
    split at h
    · simp only [Prod.mk.injEq] at h
      exact absurd h.2 (by decide)
    · split at h
      · simp only [Prod.mk.injEq] at h
        rw [← h.1]
        exact overlay_after_extract _ _ rfl n
      · simp only [Prod.mk.injEq] at h
        exact absurd h.2 (by decide)
  · intro p order p' h n
    simp only [reorder_sections] at h
    split at h
    · split at h
      · simp only [Prod.mk.injEq] at h
        rw [← h.1]
        exact overlay_after_extract _ _ rfl n
      · simp only [Prod.mk.injEq] at h
        exact absurd h.2 (by decide)
    · simp only [Prod.mk.injEq] at h
      exact absurd h.2 (by decide)

/-- C1 witness: the overlay equation at a concrete reorder, at key "C". -/
theorem c1_witness :
    dictLookup (reorder_sections pABC ["B".data, "A".data]).1.sections "C".data =
      orElseO (dictLookup (runScan (reorder_sections pABC ["B".data, "A".data]).1.raw_content
        (reorder_sections pABC ["B".data, "A".data]).1.begin_document_index
        (reorder_sections pABC ["B".data, "A".data]).1.end_document_index []).1 "C".data)
        (dictLookup pABC.sections "C".data) :=
  c1_sections_overlay.2.2 pABC ["B".data, "A".data]
    (reorder_sections pABC ["B".data, "A".data]).1 (by decide) "C".data

/-- C1 counterexample: after `reorder_sections(["B","A"])` succeeds on a
document with sections A, B, C, the sections mapping still holds an entry
named C although a fresh scan of the current lines yields none for C. -/
theorem c1_counterexample :
    (reorder_sections pABC ["B".data, "A".data]).2 = true ∧
    dictLookup (reorder_sections pABC ["B".data, "A".data]).1.sections "C".data ≠ none ∧
    dictLookup (runScan (reorder_sections pABC ["B".data, "A".data]).1.raw_content
      (reorder_sections pABC ["B".data, "A".data]).1.begin_document_index
      (reorder_sections pABC ["B".data, "A".data]).1.end_document_index []).1 "C".data =
      none := by
  decide

/-- C2 amended: on a parsed document with sections A, B, C, the call
`reorder_sections(["B","A"])` succeeds and the body becomes exactly B's line
range followed by A's line range (C's lines are dropped from the body), but C
is not removed from the sections mapping: `get_section("C")` still returns
C's pre-reorder content, as long as no remaining line carries a section
header named C. -/
theorem c2_reorder_subtractive_stale (p : Parser) (nA nB nC : List Char) (sA sB sC : Sect)
    (hb : 0 ≤ p.begin_document_index)
    (hbe : p.begin_document_index < p.end_document_index)
    (he : p.end_document_index < (p.raw_content.length : Int))
    (hend : Option.any endPred (pyGet p.raw_content p.end_document_index) = true)
    (hA : dictLookup p.sections nA = some sA)
    (hB : dictLookup p.sections nB = some sB)
    (hC : dictLookup p.sections nC = some sC)
    (hnoC : ∀ l ∈ (reorder_sections p [nB, nA]).1.raw_content,
      findSectionHeader l ≠ some nC) :
    (reorder_sections p [nB, nA]).2 = true ∧
    (reorder_sections p [nB, nA]).1.raw_content =
      p.raw_content.take (p.begin_document_index + 1).toNat ++
      (pyGetSlice p.raw_content sB.start_line (sB.end_line + 1) ++
       pyGetSlice p.raw_content sA.start_line (sA.end_line + 1)) ++
      p.raw_content.drop p.end_document_index.toNat ∧
    get_section (reorder_sections p [nB, nA]).1 nC = some sC.content := by
  have hall : ([nB, nA]).all (fun n => (dictLookup p.sections n).isSome) = true := by
    simp [hA, hB]
  obtain ⟨h1, h2, h3⟩ := reorder_components p [nB, nA] hb hbe he hend hall
  refine ⟨h1, ?_, ?_⟩
  · rw [h2]
    simp [hA, hB]
  · simp only [get_section, h3 nC hnoC, hC, Option.map_some']

theorem c2_witness :
    get_section (reorder_sections pABC ["B".data, "A".data]).1 "C".data =
      some (Sect.content ⟨"\\section{C}\nc1\n".data, 6, 7⟩) :=
  (c2_reorder_subtractive_stale pABC "A".data "B".data "C".data
    ⟨"\\section{A}\na1\n".data, 2, 3⟩ ⟨"\\section{B}\nb1\n".data, 4, 5⟩
    ⟨"\\section{C}\nc1\n".data, 6, 7⟩
    (by decide) (by decide) (by decide) (by decide)
    (by decide) (by decide) (by decide) (by decide)).2.2

/-- C2 counterexample: on a concrete document with sections A, B, C the
reorder succeeds, yet `get_section("C")` still returns C's old content and C
is still a key of the sections mapping, refuting "C is absent afterward". -/
theorem c2_counterexample :
    (reorder_sections pABC ["B".data, "A".data]).2 = true ∧
    get_section (reorder_sections pABC ["B".data, "A".data]).1 "C".data =
      some "\\section{C}\nc1\n".data ∧
    dictLookup (reorder_sections pABC ["B".data, "A".data]).1.sections "C".data ≠ none := by
  decide

/-- C3 amended: `modify_section(name, X)` replaces the section's entire line
range including its original header line.  When no line of the resulting
document carries a header named `name` (in particular, when `X` contains no
such header), a subsequent `get_section(name)` returns the section's
pre-replacement content (the stale mapping entry), not `X` and not the
original header followed by `X`. -/
theorem c3_replace_returns_stale_content (p : Parser) (name X : List Char) (s : Sect)
    (hs : dictLookup p.sections name = some s)
    (hb : 0 ≤ p.begin_document_index)
    (hs0 : 0 ≤ s.start_line)
    (hs2 : s.start_line ≤ s.end_line + 1)
    (hs3 : s.end_line < p.end_document_index)
    (he : p.end_document_index < (p.raw_content.length : Int))
    (hend : Option.any endPred (pyGet p.raw_content p.end_document_index) = true)
    (hnoname : ∀ l ∈ (modify_section p name X).1.raw_content,
      findSectionHeader l ≠ some name) :
    (modify_section p name X).2 = MutOutcome.success ∧
    (modify_section p name X).1.raw_content =
      p.raw_content.take s.start_line.toNat ++ pySplitlines X ++
      p.raw_content.drop (s.end_line + 1).toNat ∧
    get_section (modify_section p name X).1 name = some s.content := by
  obtain ⟨h1, h2, h3⟩ := modify_components p name X s hs hb hs0 hs2 hs3 he hend
  exact ⟨h1, h2, by simp only [get_section, h3 name hnoname, hs, Option.map_some']⟩

theorem c3_witness :
    get_section (modify_section p3 "A".data "newbody\n".data).1 "A".data =
      some (Sect.content ⟨"\\section{A}\nbody\n".data, 2, 3⟩) :=
  (c3_replace_returns_stale_content p3 "A".data "newbody\n".data
    ⟨"\\section{A}\nbody\n".data, 2, 3⟩
    (by decide) (by decide) (by decide) (by decide) (by decide) (by decide)
    (by decide) (by decide)).2.2

/-- C3 counterexample: replacing section A's content with "newbody\n"
succeeds, but `get_section("A")` returns the old content, not the original
header line followed by the new content as the claim states. -/
theorem c3_counterexample :
    (modify_section p3 "A".data "newbody\n".data).2 = MutOutcome.success ∧
    get_section (modify_section p3 "A".data "newbody\n".data).1 "A".data =
      some "\\section{A}\nbody\n".data ∧
    some "\\section{A}\nbody\n".data ≠
      some ("\\section{A}\n".data ++ "newbody\n".data) := by
  decide

/-- C4 amended: on a parser whose boundary indices are still the unset
sentinel `-1` (e.g. a fresh parser), loading text in which no line contains
the begin marker, or no line contains the end marker, always fails.  The
claim's "for every parser state" fails (see `c4_counterexample`): the
boundary indices are never reset, so a reused parser can report success on
marker-less input. -/
theorem c4_fresh_parser_needs_markers (p : Parser) (text : List Char)
    (hb : p.begin_document_index = -1) (he : p.end_document_index = -1)
    (hmiss : (∀ l ∈ pySplitlines text, containsSub beginMarker l = false) ∨
             (∀ l ∈ pySplitlines text, containsSub endMarker l = false)) :
    (parse_content p text).2 = false := by
  apply parse_false_of_identify
  rcases identify_spec {p with raw_content := pySplitlines text} with ⟨_, _, hiff⟩
  apply hiff.mpr
  rcases hmiss with hm | hm
  · left
    have hnone : lastIdxAux beginPred 0 (pySplitlines text) = none :=
      lastIdxAux_none _ _ 0 (fun l hl => by simpa [beginPred] using hm l hl)
    rw [hnone]
    simpa using hb
  · right
    have hnone : lastIdxAux endPred 0 (pySplitlines text) = none := by
      apply lastIdxAux_none
      intro l hl
      simp only [endPred, hm l hl, Bool.false_and]
    rw [hnone]
    simpa using he

theorem c4_witness :
    (∀ l ∈ pySplitlines "hello\nworld".data, containsSub beginMarker l = false) ∧
    (parse_content newParser "hello\nworld".data).2 = false :=
  ⟨by decide, c4_fresh_parser_needs_markers newParser "hello\nworld".data rfl rfl
    (Or.inl (by decide))⟩

/-- C4 counterexample: after one successful parse, a second `parse_content`
call on text that contains neither marker returns success, because the stale
boundary indices from the first parse are never reset. -/
theorem c4_counterexample :
    (∀ l ∈ pySplitlines c4doc2, containsSub beginMarker l = false) ∧
    (∀ l ∈ pySplitlines c4doc2, containsSub endMarker l = false) ∧
    (parse_content (parse_content newParser c4doc1).1 c4doc2).2 = true := by
  decide

/-- C5 amended: a failed load does retain partial state: `raw_content` has
already been overwritten with the new input's lines when the failure is
reported, and is not restored. -/
theorem c5_failed_load_keeps_new_lines (p : Parser) (text : List Char)
    (h : (parse_content p text).2 = false) :
    (parse_content p text).1.raw_content = pySplitlines text :=
  parse_raw p text

theorem c5_witness :
    (parse_content newParser "hello".data).2 = false ∧
    (parse_content newParser "hello".data).1.raw_content = pySplitlines "hello".data :=
  ⟨by decide, c5_failed_load_keeps_new_lines newParser "hello".data (by decide)⟩

/-- C5 counterexample: a failing `parse_content` call on a fresh parser
leaves `raw_content` holding the new text's lines, not the previous (empty)
line sequence, refuting "no partial internal state is retained". -/
theorem c5_counterexample :
    (parse_content newParser "hello".data).2 = false ∧
    (parse_content newParser "hello".data).1.raw_content ≠ newParser.raw_content := by
  decide

/-- C6: for any well-formed document (a line sequence containing both
boundary markers), loading the rendered text into a fresh parser and
rendering again returns the same text byte for byte. -/
theorem c6_round_trip (D : List (List Char))
    (hb : ∃ l ∈ D, containsSub beginMarker l = true)
    (he : ∃ l ∈ D, containsSub endMarker l = true) :
    generate_latex (parse_content newParser D.flatten).1 = D.flatten := by
  simp only [generate_latex, parse_raw]
  exact pySplitlines_flatten D.flatten

theorem c6_witness :
    (∃ l ∈ [beginMarker, endMarker], containsSub beginMarker l = true) ∧
    generate_latex (parse_content newParser [beginMarker, endMarker].flatten).1 =
      [beginMarker, endMarker].flatten :=
  ⟨by decide, c6_round_trip [beginMarker, endMarker] (by decide) (by decide)⟩

/-- C7 amended: the boundary locator performs a single in-order scan;
`beginBoundaryIndex` becomes the index of the last line containing the begin
marker, and `endBoundaryIndex` the index of the last line that contains the
end marker and does not contain the begin marker (the `elif` skips lines that
contain both); an index with no matching line keeps its previous value, and
the scan errors exactly when either index is `-1` afterwards. -/
theorem c7_amended_scan (p : Parser) :
    (identify_document_boundaries p).1.begin_document_index =
      (lastIdxAux beginPred 0 p.raw_content).getD p.begin_document_index ∧
    (identify_document_boundaries p).1.end_document_index =
      (lastIdxAux endPred 0 p.raw_content).getD p.end_document_index ∧
    ((identify_document_boundaries p).2 = false ↔
      ((lastIdxAux beginPred 0 p.raw_content).getD p.begin_document_index = -1 ∨
       (lastIdxAux endPred 0 p.raw_content).getD p.end_document_index = -1)) :=
  identify_spec p

/-- C7 counterexample: on a three-line sequence whose last line contains
both markers, the recorded end index is 1, although the last line containing
the end marker is line 2, refuting "endBoundaryIndex is the index of the
last line containing the end-marker". -/
theorem c7_counterexample :
    (boundsLoop 0 c7lines (-1) (-1)).2 = 1 ∧
    containsSub endMarker (c7lines.getD 2 []) = true ∧
    c7lines.length = 3 := by decide

/-- C8: the spec's scenario claims `extract_skills` returns ["Go", "Rust"].
The code returns only ["Go"]: the item regex lookahead `(?=\\item|\n\\end)`
can never match after the last item, because the captured itemize body ends
right before `\end{itemize}`, so the final item is always dropped.  This
theorem evaluates the embedding on the scenario input. -/
theorem c8_skills_last_item_dropped :
    (parse_content newParser c8text).2 = true ∧
    extract_skills (parse_content newParser c8text).1 = ["Go".data] ∧
    extract_skills (parse_content newParser c8text).1 ≠ ["Go".data, "Rust".data] := by
  decide

/-- C9: `reorder_sections` accepts a list that repeats the name of an
existing section: the call succeeds and the new body is the concatenation of
each named section's current line range, once per occurrence of its name in
the order list; no uniqueness or permutation check rejects duplicates. -/
theorem c9_reorder_duplicates (p : Parser) (order : List (List Char))
    (hb : 0 ≤ p.begin_document_index)
    (hbe : p.begin_document_index < p.end_document_index)
    (he : p.end_document_index < (p.raw_content.length : Int))
    (hend : Option.any endPred (pyGet p.raw_content p.end_document_index) = true)
    (hall : order.all (fun n => (dictLookup p.sections n).isSome) = true)
    (hdup : ∃ n ∈ order, 2 ≤ order.count n) :
    (reorder_sections p order).2 = true ∧
    (reorder_sections p order).1.raw_content =
      p.raw_content.take (p.begin_document_index + 1).toNat ++
      (order.map (fun n =>
        match dictLookup p.sections n with
        | some s => pyGetSlice p.raw_content s.start_line (s.end_line + 1)
        | none => [])).flatten ++
      p.raw_content.drop p.end_document_index.toNat :=
  ⟨(reorder_components p order hb hbe he hend hall).1,
   (reorder_components p order hb hbe he hend hall).2.1⟩

theorem c9_witness : (reorder_sections pABC ["A".data, "A".data]).2 = true :=
  (c9_reorder_duplicates pABC ["A".data, "A".data] (by decide) (by decide) (by decide)
    (by decide) (by decide) ⟨"A".data, by decide, by decide⟩).1

/-- C10: the `elif` in the boundary scan means a line containing both
markers is only a begin-boundary candidate: whenever the scan (started from
the unset sentinel) records an end index, that index holds a line containing
the end marker but not the begin marker; consequently a fresh parse of text
in which every end-marker line also contains the begin marker fails. -/
theorem c10_end_elif :
    (∀ (p : Parser) (j : Int), p.end_document_index = -1 →
      (boundsLoop 0 p.raw_content p.begin_document_index p.end_document_index).2 = j →
      j ≠ -1 →
      ∃ l, pyGet p.raw_content j = some l ∧
        containsSub endMarker l = true ∧ containsSub beginMarker l = false) ∧
    (∀ text : List Char,
      (∀ l ∈ pySplitlines text, containsSub endMarker l = true →
        containsSub beginMarker l = true) →
      (parse_content newParser text).2 = false) :=
  ⟨fun p j h1 h2 h3 => endIdx_not_beginLine p j h1 h2 h3,
   fun text h => parse_false_end_only_with_begin text h⟩

theorem c10_witness : (parse_content newParser c10text).2 = false :=
  c10_end_elif.2 c10text (by decide)

end LatexParser
